import Mathlib

/-!
Verification of the Traffic-Light-Test-Task seeding and tree-rendering core.

The development shallowly embeds three source units:
* `src/core/management/commands/tree_init.py` — the seeding command
  (`_ensure_department_tree`, `_seed_employees`);
* `src/core/models.py` — `Department.clean` (parent validation);
* `src/core/views.py` — `_build_department_tree` (flat rows to forest).

The storage collaborator (PostgreSQL via Django) is modelled as an explicit
store: bulk insertion appends rows and assigns consecutive integer
identities, and an unordered read with `Department.Meta.ordering = ("id",)`
returns the rows sorted ascending by id.  Python's `random.Random` is
modelled as a deterministic tape of naturals with a cursor, since the claims
depend only on the order in which draws are consumed, never on the
distribution of the underlying generator.
-/

/-- A department row as read back with `.only("id", "parent_id")`. -/
structure DeptRow where
  id : Nat
  parent_id : Option Nat
deriving DecidableEq, Repr, Inhabited

/-- The department table: rows in physical insertion order plus the identity
sequence counter used for the next insert. -/
structure DeptStore where
  rows : List DeptRow
  nextId : Nat
deriving DecidableEq, Repr

/-- The empty table with a freshly reset identity sequence (ids start at 1,
as after `TRUNCATE ... RESTART IDENTITY`). -/
def emptyDeptStore : DeptStore := ⟨[], 1⟩

/-- `Department.objects.bulk_create`: append one row per requested parent,
assigning consecutive identities from the sequence counter. -/
def bulk_create_departments (s : DeptStore) (parents : List (Option Nat)) : DeptStore :=
  { rows := s.rows ++ (List.range parents.length).map
      (fun i => ⟨s.nextId + i, parents.getD i none⟩)
    nextId := s.nextId + parents.length }

/-- `Department.objects.all().only("id", "parent_id")`: the model sorts by id
because `Department.Meta.ordering = ("id",)` (models.py line 35) makes every
unqualified queryset ordered ascending by identity. -/
def allDepartmentsById (s : DeptStore) : List DeptRow :=
  List.insertionSort (fun a b => a.id ≤ b.id) s.rows

instance : IsTotal DeptRow (fun a b => a.id ≤ b.id) :=
  ⟨fun a b => Nat.le_total a.id b.id⟩

instance : IsTrans DeptRow (fun a b => a.id ≤ b.id) :=
  ⟨fun _ _ _ h1 h2 => Nat.le_trans h1 h2⟩

/-- `counts = [1, 3, 5, 7, 9]` (tree_init.py line 141). -/
def tree_counts : List Nat := [1, 3, 5, 7, 9]

/-- One iteration of the level loop of `_ensure_department_tree`
(tree_init.py lines 154-172): create `counts[level-1]` nodes parented
round-robin over the previous level, then re-read all departments ordered by
id and slice out the fresh level.  Returns the updated store, the new
`prev_level_nodes` and the new `created`. -/
def tree_level_step (s : DeptStore) (prev : List DeptRow) (level : Nat) :
    Except String (DeptStore × List DeptRow × List DeptRow) :=
  if prev.length = 0 then
    .error "Invalid department tree generation: previous level is empty."
  else
    let level_count := tree_counts.getD (level - 1) 0
    let to_create := (List.range level_count).map
      (fun i => some ((prev.getD (i % prev.length) default).id))
    let s2 := bulk_create_departments s to_create
    let total_expected := (tree_counts.take level).sum
    let current_all := (allDepartmentsById s2).take total_expected
    let current_level := current_all.drop ((tree_counts.take (level - 1)).sum)
    .ok (s2, current_level, current_all)

/-- The `for level in range(2, cfg.levels + 1)` loop of
`_ensure_department_tree`, threading the store, `prev_level_nodes` and
`created`. -/
def tree_levels_loop : List Nat → DeptStore → List DeptRow → List DeptRow →
    Except String (DeptStore × List DeptRow)
  | [], s, _, created => .ok (s, created)
  | level :: rest, s, prev, _created =>
    match tree_level_step s prev level with
    | .error e => .error e
    | .ok (s2, prev2, created2) => tree_levels_loop rest s2 prev2 created2

/-- `_ensure_department_tree` (tree_init.py lines 129-177) with the validated
configuration `departments = 25`, `levels = 5`: reuse when 25 rows already
exist, refuse a nonzero partial table, otherwise build level by level and
check the final count. -/
def ensure_department_tree (s : DeptStore) : Except String (DeptStore × List DeptRow) :=
  let existing_count := s.rows.length
  if 25 ≤ existing_count then
    .ok (s, (allDepartmentsById s).take 25)
  else if existing_count ≠ 0 then
    .error "Department table already has rows. Use truncate to reset before seeding."
  else
    let s1 := bulk_create_departments s [none]
    let parents := allDepartmentsById s1
    let prev := parents.take (tree_counts.getD 0 0)
    match tree_levels_loop [2, 3, 4, 5] s1 prev parents with
    | .error e => .error e
    | .ok (s2, created) =>
      if created.length ≠ 25 then
        .error "Department creation mismatch"
      else
        .ok (s2, created)

/-- The 25 rows the builder produces from an empty store: ids 1-25 in five
levels, each level parented round-robin over the previous one. -/
def expectedTreeRows : List DeptRow :=
  [⟨1, none⟩,
   ⟨2, some 1⟩, ⟨3, some 1⟩, ⟨4, some 1⟩,
   ⟨5, some 2⟩, ⟨6, some 3⟩, ⟨7, some 4⟩, ⟨8, some 2⟩, ⟨9, some 3⟩,
   ⟨10, some 5⟩, ⟨11, some 6⟩, ⟨12, some 7⟩, ⟨13, some 8⟩, ⟨14, some 9⟩,
   ⟨15, some 5⟩, ⟨16, some 6⟩,
   ⟨17, some 10⟩, ⟨18, some 11⟩, ⟨19, some 12⟩, ⟨20, some 13⟩, ⟨21, some 14⟩,
   ⟨22, some 15⟩, ⟨23, some 16⟩, ⟨24, some 10⟩, ⟨25, some 11⟩]

/-- The store state after a successful first build from empty. -/
def expectedTreeStore : DeptStore := ⟨expectedTreeRows, 26⟩

/-- Nodes of level `L` (1-based) of a result list ordered by identity: the
window of length `counts[L-1]` starting at the cumulative count of the
earlier levels. -/
def levelSlice (ds : List DeptRow) (L : Nat) : List DeptRow :=
  (ds.drop ((tree_counts.take (L - 1)).sum)).take (tree_counts.getD (L - 1) 0)

/-- C1: from an empty department store, `ensure_department_tree` yields
exactly 25 departments in 5 levels of sizes [1, 3, 5, 7, 9], the rows being
in ascending identity order; exactly one node has no parent, and for each
level L from 2 to 5, node i (0-indexed) of that level is parented to node
(i mod len(previous level)) of level L-1. -/
theorem c1_tree_shape :
    ensure_department_tree emptyDeptStore = .ok (expectedTreeStore, expectedTreeRows) ∧
    expectedTreeRows.length = 25 ∧
    List.Pairwise (fun a b => a.id < b.id) expectedTreeRows ∧
    (∀ L, L < 6 → 1 ≤ L →
      (levelSlice expectedTreeRows L).length = tree_counts.getD (L - 1) 0) ∧
    (expectedTreeRows.filter (fun d => d.parent_id.isNone)).length = 1 ∧
    (∀ L, L < 6 → 2 ≤ L → ∀ i, i < tree_counts.getD (L - 1) 0 →
      ((levelSlice expectedTreeRows L).getD i default).parent_id =
        some (((levelSlice expectedTreeRows (L - 1)).getD
          (i % (levelSlice expectedTreeRows (L - 1)).length) default).id)) :=
  ⟨by rfl, by decide, by decide, by decide, by decide, by decide⟩

/-- C3: whenever the department store already holds at least 25 rows,
`ensure_department_tree` leaves the store unchanged and returns the first 25
rows in ascending identity order; in particular a second call right after a
successful first call from empty returns exactly the 25 rows the first call
created and changes nothing. -/
theorem c3_ensure_tree_idempotent :
    (∀ s : DeptStore, 25 ≤ s.rows.length →
        ensure_department_tree s = .ok (s, (allDepartmentsById s).take 25) ∧
        List.Pairwise (fun a b => a.id ≤ b.id) ((allDepartmentsById s).take 25)) ∧
    ensure_department_tree emptyDeptStore = .ok (expectedTreeStore, expectedTreeRows) ∧
    ensure_department_tree expectedTreeStore = .ok (expectedTreeStore, expectedTreeRows) := by
  refine ⟨fun s hs => ⟨?_, ?_⟩, by rfl, by rfl⟩
  · simp only [ensure_department_tree, if_pos hs]
  · have hsorted : List.Pairwise (fun a b : DeptRow => a.id ≤ b.id) (allDepartmentsById s) :=
      List.sorted_insertionSort (fun a b : DeptRow => a.id ≤ b.id) s.rows
    exact hsorted.sublist (List.take_sublist 25 _)

/-- Witness for C3 at a concrete 25-row store. -/
theorem c3_ensure_tree_idempotent_witness :
    ensure_department_tree expectedTreeStore =
      .ok (expectedTreeStore, (allDepartmentsById expectedTreeStore).take 25) ∧
    List.Pairwise (fun a b => a.id ≤ b.id) ((allDepartmentsById expectedTreeStore).take 25) :=
  c3_ensure_tree_idempotent.1 expectedTreeStore (by decide)

/-! ## Employee seeding (`_seed_employees`, tree_init.py lines 180-256) -/

/-- Python's `random.Random`, modelled as a deterministic tape of naturals
with a cursor: every primitive draw consumes exactly one tape cell.  The
claims about `_seed_employees` depend only on the order in which draws are
consumed, not on the generator's distribution. -/
structure Rnd where
  tape : Nat → Nat
  pos : Nat
deriving Inhabited

/-- Consume one raw draw from the stream. -/
def Rnd.next (r : Rnd) : Nat × Rnd := (r.tape r.pos, ⟨r.tape, r.pos + 1⟩)

/-- `rnd.randrange(n)`: a value in `[0, n)`. -/
def randrange (n : Nat) (r : Rnd) : Nat × Rnd :=
  let (v, r2) := r.next
  (v % n, r2)

/-- `rnd.randint(lo, hi)`: a value in the closed range `[lo, hi]`. -/
def randint (lo hi : Nat) (r : Rnd) : Nat × Rnd :=
  let (v, r2) := r.next
  (lo + v % (hi - lo + 1), r2)

/-- The name pools of `_seed_employees` (tree_init.py lines 192-204). -/
def first_names : List String :=
  ["Данил", "Иван", "Глеб", "Святослав", "Петр", "Николай", "Августин",
   "Икакий", "Александр", "Матвей"]

def last_names : List String :=
  ["Федоров", "Якимов", "Петров", "Сапожников", "Курдюмов", "Хлебников",
   "Исаев", "Пушкарев"]

def middle_names : List String :=
  ["Евгеньевич", "Сергеевич", "Александрович", "Иванович", "Глебович",
   "Святославович", "Николаевич", "Августинович"]

/-- One generated employee record.  The employment timestamp is recorded as
the backdating offsets from `now` (days, seconds), since `now` is an
external input fixed for the whole run. -/
structure EmployeeRec where
  full_name : String
  role_id : Nat
  days_back : Nat
  seconds_back : Nat
  salary : Nat
  department_id : Nat
deriving DecidableEq, Repr, Inhabited

/-- The body of the inner `for i in range(n)` loop of `_seed_employees`
(tree_init.py lines 229-253) at global employee index `k = created + i`:
department round-robin by `k`, then role, salary offset, three name parts
and two backdating draws, in the source's order. -/
def gen_employee (role_ids_defaults : List (Nat × Nat)) (dept_ids : List Nat)
    (k : Nat) (r : Rnd) : EmployeeRec × Rnd :=
  let dept_id := dept_ids.getD (k % dept_ids.length) 0
  let (ri, r1) := randrange role_ids_defaults.length r
  let rd := role_ids_defaults.getD ri (0, 0)
  let (offset, r2) := randint 0 120000 r1
  let salary := rd.2 + offset
  let (fi, r3) := randrange first_names.length r2
  let (li, r4) := randrange last_names.length r3
  let (mi, r5) := randrange middle_names.length r4
  let full_name := first_names.getD fi "" ++ " " ++ last_names.getD li "" ++ " " ++
    middle_names.getD mi "" ++ " #" ++ toString (k + 1)
  let (days_back, r6) := randint 0 3650 r5
  let (seconds_back, r7) := randint 0 (24 * 3600 - 1) r6
  (⟨full_name, rd.1, days_back, seconds_back, salary, dept_id⟩, r7)

/-- Generate `n` employees at consecutive global indices starting at
`start`, threading the random stream. -/
def gen_run (role_ids_defaults : List (Nat × Nat)) (dept_ids : List Nat) :
    Nat → Nat → Rnd → List EmployeeRec × Rnd
  | _, 0, r => ([], r)
  | start, n + 1, r =>
    let (e, r1) := gen_employee role_ids_defaults dept_ids start r
    let (rest, r2) := gen_run role_ids_defaults dept_ids (start + 1) n r1
    (e :: rest, r2)

/-- The `while created < total` loop of `_seed_employees` (tree_init.py
lines 222-256): each pass generates a batch of `min(batch_size, remaining)`
records and advances `created`.  The fuel argument only bounds the number
of loop iterations; with `batch_size ≥ 1` a fuel of `total + 1` is never
exhausted. -/
def seed_loop (role_ids_defaults : List (Nat × Nat)) (dept_ids : List Nat)
    (total batch_size : Nat) : Nat → Nat → Rnd → List EmployeeRec × Rnd
  | 0, _, r => ([], r)
  | fuel + 1, created, r =>
    if created < total then
      let remaining := total - created
      let n := if batch_size < remaining then batch_size else remaining
      let (batch, r1) := gen_run role_ids_defaults dept_ids created n r
      let (rest, r2) := seed_loop role_ids_defaults dept_ids total batch_size
        fuel (created + n) r1
      (batch ++ rest, r2)
    else ([], r)

/-- `_seed_employees` with its guard checks (tree_init.py lines 187-217):
empty role pool, empty department pool and a non-empty employee table each
abort before any insertion; otherwise the batching loop runs from
`created = 0`. -/
def seed_employees (role_ids_defaults : List (Nat × Nat)) (dept_ids : List Nat)
    (existing_count total batch_size : Nat) (r : Rnd) :
    Except String (List EmployeeRec × Rnd) :=
  if role_ids_defaults.length = 0 then
    .error "No roles available for employee generation."
  else if dept_ids.length = 0 then
    .error "No departments available for employee generation."
  else if existing_count ≠ 0 then
    .error "Employee table already has rows. Use truncate to reset before seeding."
  else
    .ok (seed_loop role_ids_defaults dept_ids total batch_size (total + 1) 0 r)

/-- The department of the record generated at global index `k` is taken
round-robin from the department pool, before any random draw. -/
lemma gen_employee_department (R : List (Nat × Nat)) (D : List Nat) (k : Nat) (r : Rnd) :
    ((gen_employee R D k r).1).department_id = D.getD (k % D.length) 0 := rfl

lemma gen_run_length (R : List (Nat × Nat)) (D : List Nat) :
    ∀ n start r, ((gen_run R D start n r).1).length = n := by
  intro n
  induction n with
  | zero => intro start r; simp [gen_run]
  | succ n ih => intro start r; simp [gen_run, ih]

/-- Splitting a straight-line generation run: generating `a + b` records is
generating `a`, then `b` more from the resulting stream state. -/
lemma gen_run_add (R : List (Nat × Nat)) (D : List Nat) (a : Nat) :
    ∀ b start r, gen_run R D start (a + b) r =
      ((gen_run R D start a r).1 ++
         (gen_run R D (start + a) b (gen_run R D start a r).2).1,
       (gen_run R D (start + a) b (gen_run R D start a r).2).2) := by
  induction a with
  | zero => intro b start r; simp [gen_run]
  | succ a ih =>
    intro b start r
    have hn : a + 1 + b = (a + b) + 1 := by omega
    rw [hn]
    show gen_run R D start ((a + b) + 1) r = _
    simp only [gen_run]
    rw [ih b (start + 1)]
    have hs : start + 1 + a = start + (a + 1) := by omega
    rw [hs]
    simp

lemma gen_run_department (R : List (Nat × Nat)) (D : List Nat) :
    ∀ n start r k, k < n →
      (((gen_run R D start n r).1).getD k default).department_id =
        D.getD ((start + k) % D.length) 0 := by
  intro n
  induction n with
  | zero => intro start r k hk; omega
  | succ n ih =>
    intro start r k hk
    cases k with
    | zero =>
      simp only [gen_run, List.getD_cons_zero, Nat.add_zero]
      exact gen_employee_department R D start _
    | succ k =>
      simp only [gen_run, List.getD_cons_succ]
      rw [ih (start + 1) _ k (by omega)]
      have : start + 1 + k = start + (k + 1) := by omega
      rw [this]

/-- The batching loop generates exactly the straight-line run over global
indices `created, created+1, …, total-1`, whatever the batch size, as long
as the fuel covers the remaining count and the batch size is positive. -/
lemma seed_loop_eq_gen_run (R : List (Nat × Nat)) (D : List Nat)
    (total batch_size : Nat) (hb : 1 ≤ batch_size) :
    ∀ fuel created r, total - created ≤ fuel →
      seed_loop R D total batch_size fuel created r =
        gen_run R D created (total - created) r := by
  intro fuel
  induction fuel with
  | zero =>
    intro created r h
    have h0 : total - created = 0 := Nat.le_zero.mp h
    have hc : ¬ created < total := by omega
    simp [seed_loop, h0, gen_run]
  | succ fuel ih =>
    intro created r h
    by_cases hc : created < total
    · have hrem : 1 ≤ total - created := by omega
      simp only [seed_loop, if_pos hc]
      set n := if batch_size < total - created then batch_size else total - created with hn
      have hn1 : 1 ≤ n := by rw [hn]; split <;> omega
      have hn2 : n ≤ total - created := by rw [hn]; split <;> omega
      have hsplit : total - created = n + (total - (created + n)) := by omega
      rw [ih (created + n) _ (by omega)]
      conv_rhs => rw [hsplit]
      rw [gen_run_add]
    · have h0 : total - created = 0 := by omega
      simp [seed_loop, hc, h0, gen_run]

/-- C2: from an empty employee table with positive `total` and `batch_size`
and non-empty pools, `_seed_employees` creates exactly `total` records, and
the record at global index `k` is assigned department
`dept_ids[k mod len(dept_ids)]`, however the run is chunked. -/
theorem c2_populate_round_robin (R : List (Nat × Nat)) (D : List Nat)
    (total batch_size : Nat) (r : Rnd)
    (ht : 1 ≤ total) (hb : 1 ≤ batch_size) (hR : R ≠ []) (hD : D ≠ []) :
    ∃ es r2, seed_employees R D 0 total batch_size r = .ok (es, r2) ∧
      es.length = total ∧
      ∀ k, k < total →
        (es.getD k default).department_id = D.getD (k % D.length) 0 := by
  have hRlen : ¬ R.length = 0 := by simpa [List.length_eq_zero] using hR
  have hDlen : ¬ D.length = 0 := by simpa [List.length_eq_zero] using hD
  refine ⟨(gen_run R D 0 total r).1, (gen_run R D 0 total r).2, ?_, ?_, ?_⟩
  · simp only [seed_employees, if_neg hRlen, if_neg hDlen, ne_eq,
      not_true_eq_false, if_neg, if_pos]
    rw [seed_loop_eq_gen_run R D total batch_size hb (total + 1) 0 r (by omega)]
    simp
  · exact gen_run_length R D total 0 r
  · intro k hk
    have := gen_run_department R D total 0 r k hk
    simpa using this

/-- Concrete role pool, department pool and stream used in witnesses. -/
def rolePool0 : List (Nat × Nat) := [(1, 100), (2, 250)]

def deptPool0 : List Nat := [4, 7, 9]

def rnd0 : Rnd := ⟨fun t => 3 * t + 5, 0⟩

/-- Witness for C2: `total = 5`, `batch_size = 2`, pools of sizes 2 and 3. -/
theorem c2_populate_round_robin_witness :
    ∃ es r2, seed_employees rolePool0 deptPool0 0 5 2 rnd0 = .ok (es, r2) ∧
      es.length = 5 ∧
      ∀ k, k < 5 →
        (es.getD k default).department_id = deptPool0.getD (k % deptPool0.length) 0 :=
  c2_populate_round_robin rolePool0 deptPool0 5 2 rnd0
    (by decide) (by decide) (by decide) (by decide)

/-- C4: for a fixed stream, pools and total, the sequence of generated
employee records (name, role, salary, backdating offsets, department) is
identical for any two positive batch sizes — batching only chunks the
insertion. -/
theorem c4_batch_size_irrelevant (R : List (Nat × Nat)) (D : List Nat)
    (existing_count total b1 b2 : Nat) (r : Rnd)
    (h1 : 1 ≤ b1) (h2 : 1 ≤ b2) :
    seed_employees R D existing_count total b1 r =
      seed_employees R D existing_count total b2 r := by
  unfold seed_employees
  by_cases hR : R.length = 0
  · simp [hR]
  · by_cases hD : D.length = 0
    · simp [hR, hD]
    · by_cases hE : existing_count = 0
      · simp only [hR, hD, hE, if_neg, if_pos, ite_false, ite_true, ne_eq,
          not_false_eq_true, not_true_eq_false]
        rw [seed_loop_eq_gen_run R D total b1 h1 (total + 1) 0 r (by omega),
          seed_loop_eq_gen_run R D total b2 h2 (total + 1) 0 r (by omega)]
      · simp [hR, hD, hE]

/-- Witness for C4: batch sizes 2 and 5 over a run of 7. -/
theorem c4_batch_size_irrelevant_witness :
    seed_employees rolePool0 deptPool0 0 7 2 rnd0 =
      seed_employees rolePool0 deptPool0 0 7 5 rnd0 :=
  c4_batch_size_irrelevant rolePool0 deptPool0 0 7 2 5 rnd0 (by decide) (by decide)

/-! ## Parent validation (`Department.clean`, models.py lines 40-55)

The database's parent column is modelled as a lookup `Nat → Option Nat`
from a department id to its stored parent id; the Python walk
`ancestor = ancestor.parent` follows exactly this lookup.  The walk is
embedded with a fuel parameter: a result of `none` means the walk has not
finished within `fuel` steps, so genuine non-termination of the source loop
is `∀ fuel, walk … = none`. -/

/-- Outcomes of `Department.clean`. -/
inductive CleanResult where
  | accept
  | selfParent
  | cycle
deriving DecidableEq, Repr

/-- The `while ancestor is not None` loop (models.py lines 51-55): raise
`Cycle detected` when the current ancestor is the node itself, otherwise
step to the stored parent. -/
def clean_walk (lookup : Nat → Option Nat) (nodeId : Nat) :
    Option Nat → Nat → Option CleanResult
  | none, _ => some .accept
  | some _, 0 => none
  | some a, fuel + 1 =>
    if a = nodeId then some .cycle
    else clean_walk lookup nodeId (lookup a) fuel

/-- `Department.clean` (models.py lines 40-55): the early return for an
unsaved node or an absent parent, the self-parent check, then the ancestor
walk starting at the parent. -/
def department_clean (lookup : Nat → Option Nat) (pk : Option Nat)
    (parent_id : Option Nat) (fuel : Nat) : Option CleanResult :=
  if parent_id = none ∨ pk = none then
    if parent_id ≠ none ∧ parent_id = pk then some .selfParent
    else some .accept
  else
    match pk, parent_id with
    | some n, some p =>
      if p = n then some .selfParent
      else clean_walk lookup n (some p) fuel
    | _, _ => some .accept

/-- The ancestor position after `t` hops of the lookup. -/
def iter_chain (lookup : Nat → Option Nat) : Option Nat → Nat → Option Nat
  | o, 0 => o
  | none, _ + 1 => none
  | some a, t + 1 => iter_chain lookup (lookup a) t

/-- The ancestor chain starting at a position, cut off after `t` hops. -/
def chain_list (lookup : Nat → Option Nat) : Option Nat → Nat → List Nat
  | none, _ => []
  | some _, 0 => []
  | some a, t + 1 => a :: chain_list lookup (lookup a) t

/-- When the chain from a position reaches `none` within `T` hops, the walk
finishes with enough fuel and reports a cycle exactly when the node occurs
on the chain. -/
lemma clean_walk_spec (lookup : Nat → Option Nat) (n : Nat) :
    ∀ T o fuel, iter_chain lookup o T = none → T ≤ fuel →
      clean_walk lookup n o fuel =
        some (if n ∈ chain_list lookup o T then .cycle else .accept) := by
  intro T
  induction T with
  | zero =>
    intro o fuel h _
    cases o with
    | none => simp [clean_walk, chain_list]
    | some a => exact absurd h (by simp [iter_chain])
  | succ T ih =>
    intro o fuel h hf
    cases o with
    | none => simp [clean_walk, chain_list]
    | some a =>
      obtain ⟨fuel2, rfl⟩ : ∃ fuel2, fuel = fuel2 + 1 :=
        ⟨fuel - 1, by omega⟩
      have h2 : iter_chain lookup (lookup a) T = none := h
      by_cases ha : a = n
      · subst ha
        simp [clean_walk, chain_list]
      · have := ih (lookup a) fuel2 h2 (by omega)
        simp only [clean_walk, if_neg ha, chain_list, List.mem_cons]
        rw [this]
        have hne : ¬ n = a := fun hh => ha hh.symm
        simp [hne]

/-- When the chain from a position passes through the node within `T` hops,
the walk reports a cycle with enough fuel. -/
lemma clean_walk_finds_cycle (lookup : Nat → Option Nat) (n : Nat) :
    ∀ T o fuel, iter_chain lookup o T = some n → T < fuel →
      clean_walk lookup n o fuel = some .cycle := by
  intro T
  induction T with
  | zero =>
    intro o fuel h hf
    cases o with
    | none => exact absurd h (by simp [iter_chain])
    | some a =>
      have ha : a = n := by simpa [iter_chain] using h
      subst ha
      obtain ⟨fuel2, rfl⟩ : ∃ fuel2, fuel = fuel2 + 1 := ⟨fuel - 1, by omega⟩
      simp [clean_walk]
  | succ T ih =>
    intro o fuel h hf
    cases o with
    | none => exact absurd h (by simp [iter_chain])
    | some a =>
      obtain ⟨fuel2, rfl⟩ : ∃ fuel2, fuel = fuel2 + 1 := ⟨fuel - 1, by omega⟩
      by_cases ha : a = n
      · subst ha; simp [clean_walk]
      · have h2 : iter_chain lookup (lookup a) T = some n := h
        simp only [clean_walk, if_neg ha]
        exact ih (lookup a) fuel2 h2 (by omega)

/-- C5: for an existing node `n` with requested parent `p`, over any parent
lookup whose chain from `p` reaches `none` within `T` hops, the validation
rejects as self-parenting exactly when `p = n`, otherwise rejects as a cycle
exactly when `n` occurs on the ancestor chain of `p`, and accepts in all
other cases. -/
theorem c5_validate_parent (lookup : Nat → Option Nat) (n p T fuel : Nat)
    (hT : iter_chain lookup (some p) T = none) (hfuel : T ≤ fuel) :
    department_clean lookup (some n) (some p) fuel =
      some (if p = n then .selfParent
            else if n ∈ chain_list lookup (some p) T then .cycle
            else .accept) := by
  by_cases hp : p = n
  · simp [department_clean, hp]
  · have hd : department_clean lookup (some n) (some p) fuel =
        clean_walk lookup n (some p) fuel := by
      simp [department_clean, hp]
    rw [hd, clean_walk_spec lookup n T (some p) fuel hT hfuel, if_neg hp]

/-- Witness for C5: node 1, requested parent 2, chain 2 → 3 → none: the
validation accepts. -/
theorem c5_validate_parent_witness :
    department_clean (fun a => if a = 2 then some 3 else none) (some 1) (some 2) 2 =
      some (if 2 = 1 then .selfParent
            else if 1 ∈ chain_list (fun a => if a = 2 then some 3 else none) (some 2) 2 then
              CleanResult.cycle
            else .accept) :=
  c5_validate_parent (fun a => if a = 2 then some 3 else none) 1 2 2 2 (by rfl) (by decide)

/-- A stored parent graph with the two-cycle 2 → 3 → 2 that does not pass
through department 1. -/
def cyclicLookup : Nat → Option Nat :=
  fun a => if a = 2 then some 3 else if a = 3 then some 2 else none

lemma clean_walk_cyclic_diverges :
    ∀ fuel, clean_walk cyclicLookup 1 (some 2) fuel = none ∧
      clean_walk cyclicLookup 1 (some 3) fuel = none := by
  intro fuel
  induction fuel with
  | zero => exact ⟨rfl, rfl⟩
  | succ fuel ih =>
    constructor
    · show clean_walk cyclicLookup 1 (cyclicLookup 2) fuel = none
      exact ih.2
    · show clean_walk cyclicLookup 1 (cyclicLookup 3) fuel = none
      exact ih.1

/-- C6 counterexample: validating node 1 against requested parent 2 over the
stored cycle 2 → 3 → 2 never terminates — no amount of fuel lets the
ancestor walk of `Department.clean` finish. -/
theorem c6_walk_divergence_counterexample :
    ¬ ∃ fuel, department_clean cyclicLookup (some 1) (some 2) fuel ≠ none := by
  rintro ⟨fuel, hfuel⟩
  apply hfuel
  show clean_walk cyclicLookup 1 (some 2) fuel = none
  exact (clean_walk_cyclic_diverges fuel).1

/-- C6 amended: the ancestor walk of the parent-validation check terminates
whenever the chain from the requested parent either reaches `none` or
reaches the validated node within finitely many hops (in particular whenever
the reachable part of the stored parent graph is acyclic); it does not
terminate on a pre-existing cycle avoiding the node. -/
theorem c6_walk_terminates_on_finite_chain (lookup : Nat → Option Nat) (n p T : Nat)
    (h : iter_chain lookup (some p) T = none ∨ iter_chain lookup (some p) T = some n) :
    ∃ fuel, department_clean lookup (some n) (some p) fuel ≠ none := by
  by_cases hp : p = n
  · exact ⟨0, by simp [department_clean, hp]⟩
  · cases h with
    | inl hnone =>
      refine ⟨T, ?_⟩
      have := clean_walk_spec lookup n T (some p) T hnone (Nat.le_refl T)
      have hd : department_clean lookup (some n) (some p) T =
          clean_walk lookup n (some p) T := by
        simp [department_clean, hp]
      rw [hd, this]
      simp
    | inr hsome =>
      refine ⟨T + 1, ?_⟩
      have := clean_walk_finds_cycle lookup n T (some p) (T + 1) hsome (by omega)
      have hd : department_clean lookup (some n) (some p) (T + 1) =
          clean_walk lookup n (some p) (T + 1) := by
        simp [department_clean, hp]
      rw [hd, this]
      simp

/-- Witness for the amended C6 at the chain 2 → 3 → none with node 1. -/
theorem c6_walk_terminates_on_finite_chain_witness :
    ∃ fuel, department_clean (fun a => if a = 2 then some 3 else none)
      (some 1) (some 2) fuel ≠ none :=
  c6_walk_terminates_on_finite_chain (fun a => if a = 2 then some 3 else none) 1 2 2
    (Or.inl (by rfl))

/-! ## Flat rows to forest (`_build_department_tree`, views.py lines 28-55)

A `DepartmentNode` is embedded as its identity and children; the label is
omitted because it is composed from the external employee store
(`d.employees.count()`), which the assembly logic never inspects.  The two
Python dict passes are embedded explicitly: keys in first-insertion order
with the value of the last write, which coincides with the row list itself
whenever the row identities are pairwise distinct. -/

inductive DNode where
  | mk (id : Nat) (children : List DNode)
deriving Repr

def DNode.id : DNode → Nat
  | .mk i _ => i

def DNode.children : DNode → List DNode
  | .mk _ cs => cs

/-- Keys of a Python dict in insertion order: first occurrence wins the
position, later insertions of the same key change only the value. -/
def dict_keys (seen : List Nat) : List Nat → List Nat
  | [] => []
  | i :: ks => if i ∈ seen then dict_keys seen ks else i :: dict_keys (i :: seen) ks

/-- The value stored under key `i` after the first pass of
`_build_department_tree`: the parent of the last row with that id. -/
def lastParentOf (rows : List DeptRow) (i : Nat) : Option Nat :=
  match rows.reverse.find? (fun d => decide (d.id = i)) with
  | some d => d.parent_id
  | none => none

/-- The id-indexed state of `node_by_id` / `parent_by_id` after the first
pass, as a row list in dict iteration order. -/
def dictEntries (rows : List DeptRow) : List DeptRow :=
  (dict_keys [] (rows.map (fun d => d.id))).map (fun i => ⟨i, lastParentOf rows i⟩)

/-- The first entry of the second pass whose parent is absent from the input
set, paired with its missing parent — the dangling reference the source
raises on (views.py lines 44-46). -/
def firstDangling (entries : List DeptRow) : Option (Nat × Nat) :=
  entries.findSome? (fun d =>
    match d.parent_id with
    | none => none
    | some p =>
      if entries.any (fun e => decide (e.id = p)) then none else some (d.id, p))

/-- Ids of entries with no parent, in dict order: the forest roots. -/
def rootIdsOf (entries : List DeptRow) : List Nat :=
  (entries.filter (fun d => d.parent_id.isNone)).map (fun d => d.id)

/-- Ids of the children of `p`, in dict order: the order in which the second
pass appends to `parent_node.children`. -/
def childIdsOf (entries : List DeptRow) (p : Nat) : List Nat :=
  (entries.filter (fun d => decide (d.parent_id = some p))).map (fun d => d.id)

/-- The linked node structure reachable from an id, truncated at depth
`fuel`.  Every node reachable from a root sits on an acyclic parent chain,
whose length is at most the number of entries, so with `fuel` equal to the
entry count the truncation never fires on the returned forest: this is
exactly the object graph the second pass wires up. -/
def materializeRaw (c : Nat → List Nat) : Nat → Nat → DNode
  | 0, i => .mk i []
  | fuel + 1, i => .mk i ((c i).map (materializeRaw c fuel))

mutual
/-- `sort_rec` (views.py lines 49-52) on one node: sort the children by id
and recurse. -/
def sortTree : DNode → DNode
  | .mk i cs => .mk i (List.insertionSort (fun a b => a.id ≤ b.id) (sortTreeList cs))
/-- `sortTree` mapped over a list of nodes. -/
def sortTreeList : List DNode → List DNode
  | [] => []
  | t :: ts => sortTree t :: sortTreeList ts
end

/-- `sort_rec` applied to the root list: sort the list by id and recurse
into every subtree. -/
def sort_rec (nodes : List DNode) : List DNode :=
  List.insertionSort (fun a b => a.id ≤ b.id) (sortTreeList nodes)

/-- `_build_department_tree` (views.py lines 28-55): build the dicts, fail
on the first dangling parent reference, otherwise wire children to parents,
collect the roots and sort every sibling list ascending by id. -/
def build_department_tree (rows : List DeptRow) : Except (Nat × Nat) (List DNode) :=
  let entries := dictEntries rows
  match firstDangling entries with
  | some e => .error e
  | none =>
    .ok (sort_rec
      ((rootIdsOf entries).map (materializeRaw (childIdsOf entries) entries.length)))

/-- Inserting pairwise-distinct fresh keys into a dict keeps them in order. -/
lemma dict_keys_eq_self (l : List Nat) :
    ∀ seen, l.Nodup → (∀ i ∈ l, i ∉ seen) → dict_keys seen l = l := by
  induction l with
  | nil => intro seen _ _; rfl
  | cons i ks ih =>
    intro seen hnd hdisj
    have hi : i ∉ seen := hdisj i (by simp)
    rw [dict_keys, if_neg hi]
    congr 1
    refine ih (i :: seen) (List.nodup_cons.mp hnd).2 ?_
    intro j hj
    simp only [List.mem_cons, not_or]
    refine ⟨?_, hdisj j (by simp [hj])⟩
    rintro rfl
    exact (List.nodup_cons.mp hnd).1 hj

/-- With pairwise-distinct ids, searching a list for a member's id finds
exactly that member. -/
lemma find_by_id_of_nodup :
    ∀ (l : List DeptRow) (d : DeptRow), (l.map (fun e => e.id)).Nodup → d ∈ l →
      l.find? (fun e => decide (e.id = d.id)) = some d := by
  intro l
  induction l with
  | nil => intro d _ hd; cases hd
  | cons h t ih =>
    intro d hnd hd
    have hnd2 : (t.map (fun e => e.id)).Nodup := (List.nodup_cons.mp (by simpa using hnd)).2
    by_cases hid : h.id = d.id
    · have hdh : d = h := by
        rcases List.mem_cons.mp hd with h1 | hdt
        · exact h1
        · exfalso
          have hmem : d.id ∈ t.map (fun e => e.id) := List.mem_map_of_mem _ hdt
          have hnotin : h.id ∉ t.map (fun e => e.id) :=
            (List.nodup_cons.mp (by simpa using hnd)).1
          exact hnotin (hid ▸ hmem)
      subst hdh
      exact List.find?_cons_of_pos t (by simp)
    · rw [List.find?_cons_of_neg t (by simpa using hid)]
      refine ih d hnd2 ?_
      rcases List.mem_cons.mp hd with h1 | h2
      · exact absurd (congrArg DeptRow.id h1.symm) hid
      · exact h2

/-- With pairwise-distinct ids, the dict value under a member's id is that
member's parent. -/
lemma lastParentOf_eq (rows : List DeptRow) (d : DeptRow)
    (hnd : (rows.map (fun e => e.id)).Nodup) (hd : d ∈ rows) :
    lastParentOf rows d.id = d.parent_id := by
  have hrev : (rows.reverse.map (fun e => e.id)).Nodup := by
    rw [List.map_reverse]
    exact (List.nodup_reverse).mpr hnd
  have hdrev : d ∈ rows.reverse := List.mem_reverse.mpr hd
  unfold lastParentOf
  rw [find_by_id_of_nodup rows.reverse d hrev hdrev]

/-- With pairwise-distinct ids the two dict passes reproduce the input rows
in order: `dictEntries rows = rows`. -/
lemma dictEntries_eq_self (rows : List DeptRow)
    (hnd : (rows.map (fun e => e.id)).Nodup) : dictEntries rows = rows := by
  unfold dictEntries
  rw [dict_keys_eq_self (rows.map (fun d => d.id)) [] hnd (by simp)]
  rw [List.map_map]
  have hcong : ∀ d ∈ rows,
      ((fun i => (⟨i, lastParentOf rows i⟩ : DeptRow)) ∘ (fun d => d.id)) d = id d := by
    intro d hd
    have := lastParentOf_eq rows d hnd hd
    simp only [Function.comp_apply, id_eq]
    rw [this]
  rw [List.map_congr_left hcong, List.map_id]

/-- The assembly unfolded: fail on the first dangling entry, otherwise the
sorted materialization of the roots. -/
lemma build_department_tree_eq (rows : List DeptRow) :
    build_department_tree rows =
      match firstDangling (dictEntries rows) with
      | some e => .error e
      | none => .ok (sort_rec ((rootIdsOf (dictEntries rows)).map
          (materializeRaw (childIdsOf (dictEntries rows)) (dictEntries rows).length))) := rfl

/-- The entry test inside `firstDangling`, on its own. -/
def danglingTest (entries : List DeptRow) (d : DeptRow) : Option (Nat × Nat) :=
  match d.parent_id with
  | none => none
  | some p =>
    if entries.any (fun e => decide (e.id = p)) then none else some (d.id, p)

lemma firstDangling_eq (entries : List DeptRow) :
    firstDangling entries = entries.findSome? (danglingTest entries) := rfl

lemma danglingTest_of_present (entries : List DeptRow) (d : DeptRow) (q : Nat)
    (hpar : d.parent_id = some q) (hq : q ∈ entries.map (fun e => e.id)) :
    danglingTest entries d = none := by
  have hany : entries.any (fun e => decide (e.id = q)) = true := by
    rw [List.any_eq_true]
    obtain ⟨e, he, heq⟩ := List.mem_map.mp hq
    exact ⟨e, he, by simp [heq]⟩
  unfold danglingTest
  rw [hpar]
  simp [hany]

lemma danglingTest_of_missing (entries : List DeptRow) (d : DeptRow) (q : Nat)
    (hpar : d.parent_id = some q) (hq : q ∉ entries.map (fun e => e.id)) :
    danglingTest entries d = some (d.id, q) := by
  have hany : entries.any (fun e => decide (e.id = q)) = false := by
    rw [List.any_eq_false]
    intro e he
    simp only [decide_eq_true_eq]
    intro hep
    exact hq (hep ▸ List.mem_map_of_mem _ he)
  unfold danglingTest
  rw [hpar]
  simp [hany]

/-- C8: a row set containing a row whose parent id is absent fails with the
offending row's id and the missing parent id; concretely
`[(1, none), (2, 99)]` fails with `(2, 99)`. -/
theorem c8_dangling_reference :
    build_department_tree [⟨1, none⟩, ⟨2, some 99⟩] = .error (2, 99) ∧
    ∀ rows : List DeptRow, (rows.map (fun e => e.id)).Nodup →
      (∃ d ∈ rows, ∃ p, d.parent_id = some p ∧ p ∉ rows.map (fun e => e.id)) →
      ∃ a ∈ rows, ∃ q, a.parent_id = some q ∧ q ∉ rows.map (fun e => e.id) ∧
        build_department_tree rows = .error (a.id, q) := by
  constructor
  · rfl
  · rintro rows hnd ⟨d, hd, p, hp, hmiss⟩
    have hent : dictEntries rows = rows := dictEntries_eq_self rows hnd
    have hne : firstDangling rows ≠ none := by
      rw [firstDangling_eq, Ne, List.findSome?_eq_none_iff]
      intro hall
      have := hall d hd
      rw [danglingTest_of_missing rows d p hp hmiss] at this
      exact Option.some_ne_none _ this
    obtain ⟨b, hb⟩ := Option.ne_none_iff_exists'.mp hne
    obtain ⟨a, ha, hfa⟩ :=
      List.exists_of_findSome?_eq_some (by rw [firstDangling_eq] at hb; exact hb)
    match hpar : a.parent_id with
    | none =>
      rw [show danglingTest rows a = none from by unfold danglingTest; rw [hpar]] at hfa
      exact absurd hfa (Option.noConfusion)
    | some q =>
      by_cases hq : q ∈ rows.map (fun e => e.id)
      · rw [danglingTest_of_present rows a q hpar hq] at hfa
        exact absurd hfa (Option.noConfusion)
      · rw [danglingTest_of_missing rows a q hpar hq] at hfa
        have hb2 : firstDangling rows = some (a.id, q) := by
          rw [hb, Option.some_inj.mp hfa]
        refine ⟨a, ha, q, hpar, hq, ?_⟩
        rw [build_department_tree_eq, hent, hb2]

/-- C9 counterexample: on the two-cycle `[(1, some 2), (2, some 1)]` every
parent is present in the set, yet assembly returns a forest (the empty one)
instead of failing with an error. -/
theorem c9_cycle_not_detected_counterexample :
    build_department_tree [⟨1, some 2⟩, ⟨2, some 1⟩] = .ok [] := rfl

/-- Every parent present means no entry is dangling. -/
lemma firstDangling_eq_none (entries : List DeptRow)
    (hp : ∀ d ∈ entries, ∀ p, d.parent_id = some p →
      p ∈ entries.map (fun e => e.id)) :
    firstDangling entries = none := by
  rw [firstDangling_eq, List.findSome?_eq_none_iff]
  intro d hd
  match hpar : d.parent_id with
  | none => unfold danglingTest; rw [hpar]
  | some q => exact danglingTest_of_present entries d q hpar (hp d hd q hpar)

/-- C9 amended: when every row's parent is present in the set, assembly
always succeeds and returns a forest — a cycle among the parent pointers is
not detected; its rows are silently dropped from the output (as the
counterexample shows on `[(1, some 2), (2, some 1)]`). -/
theorem c9_all_parents_present_succeeds (rows : List DeptRow)
    (hnd : (rows.map (fun e => e.id)).Nodup)
    (hp : ∀ d ∈ rows, ∀ p, d.parent_id = some p → p ∈ rows.map (fun e => e.id)) :
    ∃ F, build_department_tree rows = .ok F := by
  have hent : dictEntries rows = rows := dictEntries_eq_self rows hnd
  refine ⟨sort_rec ((rootIdsOf rows).map
    (materializeRaw (childIdsOf rows) rows.length)), ?_⟩
  rw [build_department_tree_eq, hent, firstDangling_eq_none rows hp]

/-- Witness for the amended C9 at the concrete cyclic input. -/
theorem c9_all_parents_present_succeeds_witness :
    ∃ F, build_department_tree [⟨1, some 2⟩, ⟨2, some 1⟩] = .ok F :=
  c9_all_parents_present_succeeds [⟨1, some 2⟩, ⟨2, some 1⟩] (by decide) (by decide)

/-- Witness for the general part of C8 at `[(1, none), (2, 99)]`. -/
theorem c8_dangling_reference_witness :
    ∃ a ∈ ([⟨1, none⟩, ⟨2, some 99⟩] : List DeptRow), ∃ q, a.parent_id = some q ∧
      q ∉ ([⟨1, none⟩, ⟨2, some 99⟩] : List DeptRow).map (fun e => e.id) ∧
      build_department_tree [⟨1, none⟩, ⟨2, some 99⟩] = .error (a.id, q) :=
  c8_dangling_reference.2 [⟨1, none⟩, ⟨2, some 99⟩] (by decide)
    ⟨⟨2, some 99⟩, by decide, 99, rfl, by decide⟩

/-! ### The canonical sorted form of a successful assembly -/

/-- Ascending sort of a list of ids. -/
def sortNat (l : List Nat) : List Nat := List.insertionSort (· ≤ ·) l

/-- The sorted materialization: like `materializeRaw` followed by `sort_rec`,
but sorting each child id list before expanding it. -/
def materializeSorted (c : Nat → List Nat) : Nat → Nat → DNode
  | 0, i => .mk i []
  | fuel + 1, i => .mk i ((sortNat (c i)).map (materializeSorted c fuel))

lemma materializeSorted_id (c : Nat → List Nat) :
    ∀ fuel i, (materializeSorted c fuel i).id = i := by
  intro fuel i
  cases fuel <;> rfl

/-- Inserting through an id-preserving map commutes with sorting by id. -/
lemma orderedInsert_map_id (f : Nat → DNode) (hf : ∀ k, (f k).id = k) (x : Nat) :
    ∀ l : List Nat, (l.map f).orderedInsert (fun a b => a.id ≤ b.id) (f x) =
      (l.orderedInsert (· ≤ ·) x).map f := by
  intro l
  induction l with
  | nil => rfl
  | cons y ys ih =>
    simp only [List.map_cons, List.orderedInsert]
    by_cases hxy : x ≤ y
    · rw [if_pos (by rw [hf, hf]; exact hxy), if_pos hxy]
      rfl
    · rw [if_neg (by rw [hf, hf]; exact hxy), if_neg hxy]
      simp only [List.map_cons, ih]

lemma insertionSort_map_id (f : Nat → DNode) (hf : ∀ k, (f k).id = k) :
    ∀ l : List Nat, List.insertionSort (fun a b => a.id ≤ b.id) (l.map f) =
      (sortNat l).map f := by
  intro l
  induction l with
  | nil => rfl
  | cons x xs ih =>
    simp only [List.map_cons, List.insertionSort, sortNat] at ih ⊢
    rw [ih]
    exact orderedInsert_map_id f hf x (List.insertionSort (· ≤ ·) xs)

lemma sortTreeList_map (f g : Nat → DNode) (hfg : ∀ k, sortTree (f k) = g k) :
    ∀ l : List Nat, sortTreeList (l.map f) = l.map g := by
  intro l
  induction l with
  | nil => rfl
  | cons x xs ih => simp only [List.map_cons, sortTreeList, hfg, ih]

/-- Sorting the raw materialization yields the sorted materialization. -/
lemma sortTree_materializeRaw (c : Nat → List Nat) :
    ∀ fuel i, sortTree (materializeRaw c fuel i) = materializeSorted c fuel i := by
  intro fuel
  induction fuel with
  | zero => intro i; rfl
  | succ fuel ih =>
    intro i
    show sortTree (.mk i ((c i).map (materializeRaw c fuel))) = _
    rw [sortTree]
    rw [sortTreeList_map (materializeRaw c fuel) (materializeSorted c fuel) ih]
    rw [insertionSort_map_id (materializeSorted c fuel) (materializeSorted_id c fuel)]
    rfl

/-- `sort_rec` over a root map in canonical form. -/
lemma sort_rec_map (f g : Nat → DNode) (hfg : ∀ k, sortTree (f k) = g k)
    (hg : ∀ k, (g k).id = k) (l : List Nat) :
    sort_rec (l.map f) = (sortNat l).map g := by
  unfold sort_rec
  rw [sortTreeList_map f g hfg, insertionSort_map_id g hg]

/-- A successful assembly, in canonical form: the sorted roots, each
expanded by the sorted materialization. -/
lemma build_canonical (rows : List DeptRow)
    (hnd : (rows.map (fun e => e.id)).Nodup)
    (hdang : firstDangling rows = none) :
    build_department_tree rows = .ok ((sortNat (rootIdsOf rows)).map
      (materializeSorted (childIdsOf rows) rows.length)) := by
  have hent := dictEntries_eq_self rows hnd
  rw [build_department_tree_eq, hent, hdang]
  show Except.ok _ = _
  rw [sort_rec_map (materializeRaw (childIdsOf rows) rows.length)
    (materializeSorted (childIdsOf rows) rows.length)
    (sortTree_materializeRaw (childIdsOf rows) rows.length)
    (materializeSorted_id (childIdsOf rows) rows.length)]

/-! ### Sibling ordering of the returned forest -/

/-- Adjacent sibling ids are ascending. -/
def idsAscending : List DNode → Bool
  | [] => true
  | [_] => true
  | a :: b :: ts => decide (a.id ≤ b.id) && idsAscending (b :: ts)

mutual
/-- Every sibling list in the subtree is ascending by id. -/
def treeSorted : DNode → Bool
  | .mk _ cs => idsAscending cs && forestSortedAux cs
def forestSortedAux : List DNode → Bool
  | [] => true
  | t :: ts => treeSorted t && forestSortedAux ts
end

/-- Every sibling list of the forest, the root list included, is ascending
by id. -/
def forestSiblingsSorted (l : List DNode) : Bool := idsAscending l && forestSortedAux l

lemma idsAscending_map (f : Nat → DNode) (hf : ∀ k, (f k).id = k) :
    ∀ l : List Nat, List.Sorted (fun a b => a ≤ b) l → idsAscending (l.map f) = true := by
  intro l
  induction l with
  | nil => intro _; rfl
  | cons x xs ih =>
    intro hs
    cases xs with
    | nil => rfl
    | cons y ys =>
      have hxy : x ≤ y := (List.sorted_cons.mp hs).1 y (by simp)
      have ht := ih (List.sorted_cons.mp hs).2
      simp only [List.map_cons, idsAscending] at ht ⊢
      rw [hf, hf]
      simp [hxy, ht]

lemma forestSortedAux_of_all :
    ∀ l : List DNode, (∀ t ∈ l, treeSorted t = true) → forestSortedAux l = true := by
  intro l
  induction l with
  | nil => intro _; rfl
  | cons t ts ih =>
    intro h
    rw [forestSortedAux]
    simp only [Bool.and_eq_true]
    exact ⟨h t (by simp), ih (fun u hu => h u (by simp [hu]))⟩

lemma sortNat_sorted (l : List Nat) : List.Sorted (fun a b => a ≤ b) (sortNat l) :=
  List.sorted_insertionSort (· ≤ ·) l

/-- The sorted materialization has every sibling list ascending. -/
lemma treeSorted_materializeSorted (c : Nat → List Nat) :
    ∀ fuel i, treeSorted (materializeSorted c fuel i) = true := by
  intro fuel
  induction fuel with
  | zero =>
    intro i
    rfl
  | succ fuel ih =>
    intro i
    show treeSorted (.mk i ((sortNat (c i)).map (materializeSorted c fuel))) = true
    rw [treeSorted]
    simp only [Bool.and_eq_true]
    constructor
    · exact idsAscending_map (materializeSorted c fuel) (materializeSorted_id c fuel)
        (sortNat (c i)) (sortNat_sorted (c i))
    · refine forestSortedAux_of_all _ ?_
      intro t ht
      obtain ⟨k, _, rfl⟩ := List.mem_map.mp ht
      exact ih k

/-- The canonical form has every sibling list, roots included, ascending. -/
lemma forestSiblingsSorted_canonical (c : Nat → List Nat) (fuel : Nat) (roots : List Nat) :
    forestSiblingsSorted ((sortNat roots).map (materializeSorted c fuel)) = true := by
  unfold forestSiblingsSorted
  simp only [Bool.and_eq_true]
  constructor
  · exact idsAscending_map (materializeSorted c fuel) (materializeSorted_id c fuel)
      (sortNat roots) (sortNat_sorted roots)
  · refine forestSortedAux_of_all _ ?_
    intro t ht
    obtain ⟨k, _, rfl⟩ := List.mem_map.mp ht
    exact treeSorted_materializeSorted c fuel k

/-! ### Order independence of the assembly -/

/-- Sorting is invariant under permutation of the input. -/
lemma sortNat_congr_perm (l1 l2 : List Nat) (h : l1.Perm l2) : sortNat l1 = sortNat l2 := by
  refine List.eq_of_perm_of_sorted ?_ (sortNat_sorted l1) (sortNat_sorted l2)
  exact ((List.perm_insertionSort (· ≤ ·) l1).trans h).trans
    (List.perm_insertionSort (· ≤ ·) l2).symm

/-- The sorted materialization only depends on the sorted child lists. -/
lemma materializeSorted_congr (c1 c2 : Nat → List Nat)
    (h : ∀ j, sortNat (c1 j) = sortNat (c2 j)) :
    ∀ fuel i, materializeSorted c1 fuel i = materializeSorted c2 fuel i := by
  intro fuel
  induction fuel with
  | zero => intro i; rfl
  | succ fuel ih =>
    intro i
    show DNode.mk i ((sortNat (c1 i)).map (materializeSorted c1 fuel)) = _
    rw [h i]
    show DNode.mk i _ = DNode.mk i _
    congr 1
    exact List.map_congr_left (fun k _ => ih k)

/-- C7: on a row set with pairwise-distinct ids on which assembly succeeds,
every sibling list of the returned forest (the root list included) is
ascending by id, and every permutation of the input rows assembles to the
very same forest. -/
theorem c7_siblings_sorted_order_independent (rows rows2 : List DeptRow) (F : List DNode)
    (hnd : (rows.map (fun e => e.id)).Nodup)
    (hok : build_department_tree rows = .ok F)
    (hperm : rows2.Perm rows) :
    forestSiblingsSorted F = true ∧ build_department_tree rows2 = .ok F := by
  have hent := dictEntries_eq_self rows hnd
  have hdang : firstDangling rows = none := by
    cases hfd : firstDangling rows with
    | none => rfl
    | some e =>
      rw [build_department_tree_eq, hent, hfd] at hok
      exact Except.noConfusion hok
  have hcanon := build_canonical rows hnd hdang
  have hF : F = (sortNat (rootIdsOf rows)).map
      (materializeSorted (childIdsOf rows) rows.length) := by
    rw [hok] at hcanon
    exact Except.ok.inj hcanon
  have hndmap : (rows2.map (fun e => e.id)).Perm (rows.map (fun e => e.id)) :=
    hperm.map (fun e => e.id)
  have hnd2 : (rows2.map (fun e => e.id)).Nodup := hndmap.nodup_iff.mpr hnd
  have hpresent : ∀ d ∈ rows, ∀ p, d.parent_id = some p →
      p ∈ rows.map (fun e => e.id) := by
    intro d hd p hp
    by_contra hq
    have h1 : danglingTest rows d = some (d.id, p) :=
      danglingTest_of_missing rows d p hp hq
    have h2 := List.findSome?_eq_none_iff.mp
      (by rw [firstDangling_eq] at hdang; exact hdang) d hd
    rw [h1] at h2
    exact Option.noConfusion h2
  have hpresent2 : ∀ d ∈ rows2, ∀ p, d.parent_id = some p →
      p ∈ rows2.map (fun e => e.id) := by
    intro d hd p hp
    exact hndmap.mem_iff.mpr (hpresent d (hperm.subset hd) p hp)
  have hdang2 : firstDangling rows2 = none := firstDangling_eq_none rows2 hpresent2
  have hcanon2 := build_canonical rows2 hnd2 hdang2
  have hroots : sortNat (rootIdsOf rows2) = sortNat (rootIdsOf rows) :=
    sortNat_congr_perm _ _ ((hperm.filter _).map _)
  have hchild : ∀ j, sortNat (childIdsOf rows2 j) = sortNat (childIdsOf rows j) :=
    fun j => sortNat_congr_perm _ _ ((hperm.filter _).map _)
  have hlen : rows2.length = rows.length := hperm.length_eq
  have hmats := materializeSorted_congr (childIdsOf rows2) (childIdsOf rows) hchild
  constructor
  · rw [hF]
    exact forestSiblingsSorted_canonical _ _ _
  · rw [hcanon2, hF, hroots, hlen]
    congr 1
    exact List.map_congr_left (fun k _ => hmats rows.length k)

/-! ### No row dropped or duplicated (acyclic case)

The parent pointers of a row set induce a lookup `parentMap`; the chain
machinery of the validation section (`iter_chain`) expresses acyclicity:
every id's ancestor chain eventually reaches `none`. -/

/-- The stored parent of id `i` in the row set. -/
def parentMap (rows : List DeptRow) (i : Nat) : Option Nat :=
  match rows.find? (fun d => decide (d.id = i)) with
  | some d => d.parent_id
  | none => none

mutual
/-- Number of occurrences of id `i` in a tree. -/
def countTree (i : Nat) : DNode → Nat
  | .mk j cs => (if j = i then 1 else 0) + countForest i cs
/-- Number of occurrences of id `i` in a forest. -/
def countForest (i : Nat) : List DNode → Nat
  | [] => 0
  | t :: ts => countTree i t + countForest i ts
end

lemma parentMap_eq (rows : List DeptRow) (d : DeptRow)
    (hnd : (rows.map (fun e => e.id)).Nodup) (hd : d ∈ rows) :
    parentMap rows d.id = d.parent_id := by
  unfold parentMap
  rw [find_by_id_of_nodup rows d hnd hd]

lemma mem_childIdsOf (rows : List DeptRow) (j k : Nat) :
    k ∈ childIdsOf rows j ↔ ∃ d ∈ rows, d.id = k ∧ d.parent_id = some j := by
  simp only [childIdsOf, List.mem_map, List.mem_filter, decide_eq_true_eq]
  constructor
  · rintro ⟨d, ⟨hd, hp⟩, hid⟩
    exact ⟨d, hd, hid, hp⟩
  · rintro ⟨d, hd, hid, hp⟩
    exact ⟨d, ⟨hd, hp⟩, hid⟩

lemma mem_rootIdsOf (rows : List DeptRow) (r : Nat) :
    r ∈ rootIdsOf rows ↔ ∃ d ∈ rows, d.id = r ∧ d.parent_id = none := by
  simp only [rootIdsOf, List.mem_map, List.mem_filter, Option.isNone_iff_eq_none]
  constructor
  · rintro ⟨d, ⟨hd, hp⟩, hid⟩
    exact ⟨d, hd, hid, hp⟩
  · rintro ⟨d, hd, hid, hp⟩
    exact ⟨d, ⟨hd, hp⟩, hid⟩

lemma childIdsOf_nodup (rows : List DeptRow)
    (hnd : (rows.map (fun e => e.id)).Nodup) (j : Nat) :
    (childIdsOf rows j).Nodup := by
  unfold childIdsOf
  exact hnd.sublist ((List.filter_sublist rows).map (fun e => e.id))

lemma rootIdsOf_nodup (rows : List DeptRow)
    (hnd : (rows.map (fun e => e.id)).Nodup) :
    (rootIdsOf rows).Nodup := by
  unfold rootIdsOf
  exact hnd.sublist ((List.filter_sublist rows).map (fun e => e.id))

lemma childIdsOf_parentMap (rows : List DeptRow)
    (hnd : (rows.map (fun e => e.id)).Nodup) (j k : Nat)
    (hk : k ∈ childIdsOf rows j) :
    parentMap rows k = some j ∧ k ∈ rows.map (fun e => e.id) := by
  obtain ⟨d, hd, hid, hp⟩ := (mem_childIdsOf rows j k).mp hk
  subst hid
  exact ⟨(parentMap_eq rows d hnd hd).trans hp, List.mem_map_of_mem _ hd⟩

lemma rootIdsOf_parentMap (rows : List DeptRow)
    (hnd : (rows.map (fun e => e.id)).Nodup) (r : Nat)
    (hr : r ∈ rootIdsOf rows) :
    parentMap rows r = none ∧ r ∈ rows.map (fun e => e.id) := by
  obtain ⟨d, hd, hid, hp⟩ := (mem_rootIdsOf rows r).mp hr
  subst hid
  exact ⟨(parentMap_eq rows d hnd hd).trans hp, List.mem_map_of_mem _ hd⟩

lemma iter_chain_none (f : Nat → Option Nat) : ∀ t, iter_chain f none t = none := by
  intro t
  cases t <;> rfl

lemma iter_chain_zero (f : Nat → Option Nat) (o : Option Nat) : iter_chain f o 0 = o := by
  cases o <;> rfl

lemma iter_chain_succ (f : Nat → Option Nat) (a t : Nat) :
    iter_chain f (some a) (t + 1) = iter_chain f (f a) t := rfl

lemma iter_chain_add (f : Nat → Option Nat) :
    ∀ a b o, iter_chain f o (a + b) = iter_chain f (iter_chain f o a) b := by
  intro a
  induction a with
  | zero => intro b o; rw [iter_chain_zero, Nat.zero_add]
  | succ a ih =>
    intro b o
    cases o with
    | none => rw [iter_chain_none, iter_chain_none, iter_chain_none]
    | some x =>
      have h1 : a + 1 + b = (a + b) + 1 := by omega
      rw [h1, iter_chain_succ, iter_chain_succ, ih]

lemma iter_chain_one (f : Nat → Option Nat) (a : Nat) :
    iter_chain f (some a) 1 = f a := by
  rw [iter_chain_succ, iter_chain_zero]

lemma iter_chain_none_mono (f : Nat → Option Nat) (o : Option Nat) (t t2 : Nat)
    (h : iter_chain f o t = none) (ht : t ≤ t2) : iter_chain f o t2 = none := by
  obtain ⟨k, rfl⟩ : ∃ k, t2 = t + k := ⟨t2 - t, by omega⟩
  rw [iter_chain_add, h, iter_chain_none]

/-- Chain elements starting from a member id stay inside the id set when
every stored parent is present. -/
lemma iter_chain_mem (rows : List DeptRow)
    (hnd : (rows.map (fun e => e.id)).Nodup)
    (hpresent : ∀ d ∈ rows, ∀ p, d.parent_id = some p →
      p ∈ rows.map (fun e => e.id)) :
    ∀ u x y, iter_chain (parentMap rows) (some x) u = some y →
      x ∈ rows.map (fun e => e.id) → y ∈ rows.map (fun e => e.id) := by
  intro u
  induction u with
  | zero =>
    intro x y h hx
    rw [iter_chain_zero] at h
    exact (Option.some_inj.mp h) ▸ hx
  | succ u ih =>
    intro x y h hx
    rw [iter_chain_succ] at h
    match hpx : parentMap rows x with
    | none => rw [hpx, iter_chain_none] at h; exact Option.noConfusion h
    | some z =>
      rw [hpx] at h
      refine ih z y h ?_
      obtain ⟨d, hd, hid⟩ := List.mem_map.mp hx
      have hpm := parentMap_eq rows d hnd hd
      rw [hid] at hpm
      exact hpresent d hd z (hpm.symm.trans hpx)
/-- Witness for C7: three rows assembled, then the same rows in a different
order. -/
theorem c7_siblings_sorted_order_independent_witness :
    forestSiblingsSorted [DNode.mk 1 [DNode.mk 2 [], DNode.mk 3 []]] = true ∧
    build_department_tree [⟨2, some 1⟩, ⟨1, none⟩, ⟨3, some 1⟩] =
      .ok [DNode.mk 1 [DNode.mk 2 [], DNode.mk 3 []]] :=
  c7_siblings_sorted_order_independent
    [⟨1, none⟩, ⟨3, some 1⟩, ⟨2, some 1⟩] [⟨2, some 1⟩, ⟨1, none⟩, ⟨3, some 1⟩]
    [DNode.mk 1 [DNode.mk 2 [], DNode.mk 3 []]]
    (by decide) (by rfl) (by decide)

/-- A positive period that fixes a chain position keeps fixing it. -/
lemma iter_chain_period (f : Nat → Option Nat) (x p : Nat)
    (hp : iter_chain f (some x) p = some x) :
    ∀ m, iter_chain f (some x) (m * p) = some x := by
  intro m
  induction m with
  | zero => rw [Nat.zero_mul, iter_chain_zero]
  | succ m ih =>
    have hmp : (m + 1) * p = m * p + p := by ring
    rw [hmp, iter_chain_add, ih, hp]

/-- On a chain that eventually reaches `none`, every value occurs at one
position only. -/
lemma chain_position_inj (f : Nat → Option Nat) (s T : Nat)
    (hT : iter_chain f (some s) T = none) :
    ∀ u v x, iter_chain f (some s) u = some x →
      iter_chain f (some s) v = some x → u = v := by
  have key : ∀ u v x, u ≤ v → iter_chain f (some s) u = some x →
      iter_chain f (some s) v = some x → u = v := by
    intro u v x huv hu hv
    by_contra hne
    have hp : 0 < v - u := by omega
    have hper : iter_chain f (some x) (v - u) = some x := by
      have hx : iter_chain f (some s) (u + (v - u)) = some x := by
        rw [show u + (v - u) = v from by omega]
        exact hv
      rw [iter_chain_add, hu] at hx
      exact hx
    have hall : iter_chain f (some s) (u + T * (v - u)) = some x := by
      rw [iter_chain_add, hu, iter_chain_period f x (v - u) hper T]
    have hmul : T * 1 ≤ T * (v - u) := Nat.mul_le_mul_left T hp
    have hnone : iter_chain f (some s) (u + T * (v - u)) = none :=
      iter_chain_none_mono f _ T _ hT (by omega)
    rw [hall] at hnone
    exact Option.noConfusion hnone
  intro u v x hu hv
  rcases Nat.le_total u v with h | h
  · exact key u v x h hu hv
  · exact (key v u x h hv hu).symm

/-- A chain alive for `m` hops inside the id set forces `m < rows.length`. -/
lemma chain_length_bound (rows : List DeptRow)
    (hnd : (rows.map (fun e => e.id)).Nodup)
    (hpresent : ∀ d ∈ rows, ∀ p, d.parent_id = some p →
      p ∈ rows.map (fun e => e.id))
    (i m T : Nat)
    (hi : i ∈ rows.map (fun e => e.id))
    (hT : iter_chain (parentMap rows) (some i) T = none)
    (hm : ∀ u, u ≤ m → iter_chain (parentMap rows) (some i) u ≠ none) :
    m < rows.length := by
  have hsome : ∀ u, u ≤ m → ∃ x, iter_chain (parentMap rows) (some i) u = some x := by
    intro u hu
    cases hx : iter_chain (parentMap rows) (some i) u with
    | none => exact absurd hx (hm u hu)
    | some x => exact ⟨x, rfl⟩
  have hnodup : ((List.range (m + 1)).map
      (fun u => (iter_chain (parentMap rows) (some i) u).getD 0)).Nodup := by
    refine List.Nodup.map_on ?_ (List.nodup_range (m + 1))
    intro u hu v hv huv
    obtain ⟨x, hx⟩ := hsome u (Nat.lt_succ_iff.mp (List.mem_range.mp hu))
    obtain ⟨y, hy⟩ := hsome v (Nat.lt_succ_iff.mp (List.mem_range.mp hv))
    rw [hx, hy] at huv
    simp only [Option.getD_some] at huv
    subst huv
    exact chain_position_inj (parentMap rows) i T hT u v x hx hy
  have hsubset : ∀ z ∈ (List.range (m + 1)).map
      (fun u => (iter_chain (parentMap rows) (some i) u).getD 0),
      z ∈ rows.map (fun e => e.id) := by
    intro z hz
    obtain ⟨u, hu, hzu⟩ := List.mem_map.mp hz
    obtain ⟨x, hx⟩ := hsome u (Nat.lt_succ_iff.mp (List.mem_range.mp hu))
    rw [hx] at hzu
    simp only [Option.getD_some] at hzu
    subst hzu
    exact iter_chain_mem rows hnd hpresent u i x hx hi
  have hsp := List.subperm_of_subset hnodup hsubset
  have hle := hsp.length_le
  simp only [List.length_map, List.length_range] at hle
  omega

lemma countForest_zero (i : Nat) (g : Nat → DNode) :
    ∀ l : List Nat, (∀ k ∈ l, countTree i (g k) = 0) → countForest i (l.map g) = 0 := by
  intro l
  induction l with
  | nil => intro _; rfl
  | cons k ks ih =>
    intro h
    simp only [List.map_cons, countForest]
    rw [h k (by simp), ih (fun x hx => h x (by simp [hx]))]

lemma countForest_single (i : Nat) (g : Nat → DNode) :
    ∀ l : List Nat, l.Nodup → ∀ k0 ∈ l, countTree i (g k0) = 1 →
      (∀ k ∈ l, k ≠ k0 → countTree i (g k) = 0) → countForest i (l.map g) = 1 := by
  intro l
  induction l with
  | nil => intro _ k0 h; cases h
  | cons k ks ih =>
    intro hnd k0 hk0 h1 h0
    simp only [List.map_cons, countForest]
    rcases List.mem_cons.mp hk0 with rfl | hk0t
    · rw [h1, countForest_zero i g ks ?_]
      intro x hx
      refine h0 x (by simp [hx]) ?_
      intro hxk
      exact (List.nodup_cons.mp hnd).1 (hxk ▸ hx)
    · have hne : k ≠ k0 := fun hh => (List.nodup_cons.mp hnd).1 (hh ▸ hk0t)
      rw [h0 k (by simp) hne,
        ih (List.nodup_cons.mp hnd).2 k0 hk0t h1
          (fun x hx hxne => h0 x (by simp [hx]) hxne)]

lemma mem_childIdsOf_of_parentMap (rows : List DeptRow)
    (hnd : (rows.map (fun e => e.id)).Nodup) (k j : Nat)
    (hk : k ∈ rows.map (fun e => e.id)) (hp : parentMap rows k = some j) :
    k ∈ childIdsOf rows j := by
  obtain ⟨d, hd, hid⟩ := List.mem_map.mp hk
  refine (mem_childIdsOf rows j k).mpr ⟨d, hd, hid, ?_⟩
  have := parentMap_eq rows d hnd hd
  rw [hid] at this
  exact this.symm.trans hp

/-- An id whose ancestor chain never passes through `j` does not occur in
the subtree materialized at `j`. -/
lemma countTree_zero_of_not_ancestor (rows : List DeptRow)
    (hnd : (rows.map (fun e => e.id)).Nodup) :
    ∀ fuel j i, (∀ s, iter_chain (parentMap rows) (some i) s ≠ some j) →
      countTree i (materializeSorted (childIdsOf rows) fuel j) = 0 := by
  intro fuel
  induction fuel with
  | zero =>
    intro j i h
    have hij : ¬ (j = i) := fun hji => h 0 (by rw [iter_chain_zero, hji])
    show countTree i (.mk j []) = 0
    simp [countTree, countForest, hij]
  | succ fuel ih =>
    intro j i h
    have hij : ¬ (j = i) := fun hji => h 0 (by rw [iter_chain_zero, hji])
    show countTree i (.mk j ((sortNat (childIdsOf rows j)).map
      (materializeSorted (childIdsOf rows) fuel))) = 0
    rw [countTree, if_neg hij, countForest_zero i _ _ ?_]
    intro k hk
    have hkc : k ∈ childIdsOf rows j :=
      ((List.perm_insertionSort (· ≤ ·) (childIdsOf rows j)).mem_iff).mp hk
    obtain ⟨hpk, _⟩ := childIdsOf_parentMap rows hnd j k hkc
    refine ih k i ?_
    intro s hs
    have hs1 : iter_chain (parentMap rows) (some i) (s + 1) = some j := by
      rw [iter_chain_add, hs, iter_chain_one, hpk]
    exact h (s + 1) hs1

/-- An id whose ancestor chain reaches `j` after `steps` hops occurs exactly
once in the subtree materialized at `j` with more fuel than `steps`. -/
lemma countTree_one_of_ancestor (rows : List DeptRow)
    (hnd : (rows.map (fun e => e.id)).Nodup)
    (hpresent : ∀ d ∈ rows, ∀ p, d.parent_id = some p →
      p ∈ rows.map (fun e => e.id))
    (i : Nat) (hi : i ∈ rows.map (fun e => e.id))
    (T : Nat) (hT : iter_chain (parentMap rows) (some i) T = none) :
    ∀ steps fuel j, iter_chain (parentMap rows) (some i) steps = some j →
      steps < fuel →
      countTree i (materializeSorted (childIdsOf rows) fuel j) = 1 := by
  intro steps
  induction steps with
  | zero =>
    intro fuel j hiter hlt
    rw [iter_chain_zero] at hiter
    obtain rfl : i = j := Option.some_inj.mp hiter
    obtain ⟨f, rfl⟩ : ∃ f, fuel = f + 1 := ⟨fuel - 1, by omega⟩
    show countTree i (.mk i ((sortNat (childIdsOf rows i)).map
      (materializeSorted (childIdsOf rows) f))) = 1
    rw [countTree, if_pos rfl]
    have hzero : countForest i ((sortNat (childIdsOf rows i)).map
        (materializeSorted (childIdsOf rows) f)) = 0 := by
      refine countForest_zero i _ _ ?_
      intro k hk
      have hkc : k ∈ childIdsOf rows i :=
        ((List.perm_insertionSort (· ≤ ·) (childIdsOf rows i)).mem_iff).mp hk
      obtain ⟨hpk, _⟩ := childIdsOf_parentMap rows hnd i k hkc
      refine countTree_zero_of_not_ancestor rows hnd f k i ?_
      intro s hs
      have hs1 : iter_chain (parentMap rows) (some i) (s + 1) = some i := by
        rw [iter_chain_add, hs, iter_chain_one, hpk]
      have h0 : iter_chain (parentMap rows) (some i) 0 = some i :=
        iter_chain_zero _ _
      have := chain_position_inj (parentMap rows) i T hT (s + 1) 0 i hs1 h0
      omega
    rw [hzero]
  | succ s ih =>
    intro fuel j hiter hlt
    obtain ⟨k0, hk0⟩ : ∃ k0, iter_chain (parentMap rows) (some i) s = some k0 := by
      cases hx : iter_chain (parentMap rows) (some i) s with
      | none =>
        have hmono := iter_chain_none_mono (parentMap rows) (some i) s (s + 1) hx (by omega)
        rw [hmono] at hiter
        exact Option.noConfusion hiter
      | some x => exact ⟨x, rfl⟩
    have hpk0 : parentMap rows k0 = some j := by
      have hh := hiter
      rw [iter_chain_add, hk0, iter_chain_one] at hh
      exact hh
    have hk0ids : k0 ∈ rows.map (fun e => e.id) :=
      iter_chain_mem rows hnd hpresent s i k0 hk0 hi
    have hk0c : k0 ∈ childIdsOf rows j :=
      mem_childIdsOf_of_parentMap rows hnd k0 j hk0ids hpk0
    have hji : ¬ (j = i) := by
      intro hji
      have h0 : iter_chain (parentMap rows) (some i) 0 = some i :=
        iter_chain_zero _ _
      have := chain_position_inj (parentMap rows) i T hT (s + 1) 0 i (hji ▸ hiter) h0
      omega
    obtain ⟨f, rfl⟩ : ∃ f, fuel = f + 1 := ⟨fuel - 1, by omega⟩
    show countTree i (.mk j ((sortNat (childIdsOf rows j)).map
      (materializeSorted (childIdsOf rows) f))) = 1
    rw [countTree, if_neg hji]
    have hperm := List.perm_insertionSort (· ≤ ·) (childIdsOf rows j)
    have hone : countForest i ((sortNat (childIdsOf rows j)).map
        (materializeSorted (childIdsOf rows) f)) = 1 := by
      refine countForest_single i _ (sortNat (childIdsOf rows j))
        (hperm.nodup_iff.mpr (childIdsOf_nodup rows hnd j)) k0
        (hperm.mem_iff.mpr hk0c) ?_ ?_
      · exact ih f k0 hk0 (by omega)
      · intro k hk hkne
        have hkc : k ∈ childIdsOf rows j := hperm.mem_iff.mp hk
        obtain ⟨hpk, _⟩ := childIdsOf_parentMap rows hnd j k hkc
        refine countTree_zero_of_not_ancestor rows hnd f k i ?_
        intro s2 hs2
        have hs21 : iter_chain (parentMap rows) (some i) (s2 + 1) = some j := by
          rw [iter_chain_add, hs2, iter_chain_one, hpk]
        have heq := chain_position_inj (parentMap rows) i T hT (s2 + 1) (s + 1) j hs21 hiter
        have hs2s : s2 = s := by omega
        rw [hs2s, hk0] at hs2
        exact hkne (Option.some_inj.mp hs2).symm
    rw [hone]

/-- C10: on a row set with pairwise-distinct ids, all parents present and
acyclic parent pointers (every id's ancestor chain reaches a root), every
input id occurs exactly once in the forest the assembly returns — no row is
dropped or duplicated. -/
theorem c10_each_id_exactly_once (rows : List DeptRow) (F : List DNode)
    (hnd : (rows.map (fun e => e.id)).Nodup)
    (hpresent : ∀ d ∈ rows, ∀ p, d.parent_id = some p →
      p ∈ rows.map (fun e => e.id))
    (hacyclic : ∀ i ∈ rows.map (fun e => e.id),
      ∃ t, iter_chain (parentMap rows) (some i) t = none)
    (hok : build_department_tree rows = .ok F) :
    ∀ i ∈ rows.map (fun e => e.id), countForest i F = 1 := by
  have hdang : firstDangling rows = none := firstDangling_eq_none rows hpresent
  have hcanon := build_canonical rows hnd hdang
  have hF : F = (sortNat (rootIdsOf rows)).map
      (materializeSorted (childIdsOf rows) rows.length) := by
    rw [hok] at hcanon
    exact Except.ok.inj hcanon
  intro i hi
  obtain ⟨T, hT⟩ := hacyclic i hi
  have hex : ∃ t, iter_chain (parentMap rows) (some i) t = none := ⟨T, hT⟩
  have hT0 : iter_chain (parentMap rows) (some i) (Nat.find hex) = none :=
    Nat.find_spec hex
  have hT0min : ∀ u, u < Nat.find hex →
      iter_chain (parentMap rows) (some i) u ≠ none :=
    fun u hu => Nat.find_min hex hu
  have hT0pos : 0 < Nat.find hex := by
    rcases Nat.eq_zero_or_pos (Nat.find hex) with h0 | h1
    · rw [h0, iter_chain_zero] at hT0
      exact absurd hT0 (Option.some_ne_none i)
    · exact h1
  obtain ⟨r, hr⟩ : ∃ r,
      iter_chain (parentMap rows) (some i) (Nat.find hex - 1) = some r := by
    cases hx : iter_chain (parentMap rows) (some i) (Nat.find hex - 1) with
    | none => exact absurd hx (hT0min (Nat.find hex - 1) (by omega))
    | some x => exact ⟨x, rfl⟩
  have hm1 : iter_chain (parentMap rows) (some i) ((Nat.find hex - 1) + 1) = none := by
    rw [show (Nat.find hex - 1) + 1 = Nat.find hex from by omega]
    exact hT0
  have hpnr : parentMap rows r = none := by
    rw [iter_chain_add, hr, iter_chain_one] at hm1
    exact hm1
  have hrids : r ∈ rows.map (fun e => e.id) :=
    iter_chain_mem rows hnd hpresent (Nat.find hex - 1) i r hr hi
  have hrroot : r ∈ rootIdsOf rows := by
    obtain ⟨d, hd, hid⟩ := List.mem_map.mp hrids
    refine (mem_rootIdsOf rows r).mpr ⟨d, hd, hid, ?_⟩
    have := parentMap_eq rows d hnd hd
    rw [hid] at this
    exact this.symm.trans hpnr
  have hmlen : Nat.find hex - 1 < rows.length :=
    chain_length_bound rows hnd hpresent i (Nat.find hex - 1) (Nat.find hex) hi hT0
      (fun u hu => hT0min u (by omega))
  rw [hF]
  have hpermr := List.perm_insertionSort (· ≤ ·) (rootIdsOf rows)
  refine countForest_single i _ (sortNat (rootIdsOf rows))
    (hpermr.nodup_iff.mpr (rootIdsOf_nodup rows hnd)) r
    (hpermr.mem_iff.mpr hrroot) ?_ ?_
  · exact countTree_one_of_ancestor rows hnd hpresent i hi (Nat.find hex) hT0
      (Nat.find hex - 1) rows.length r hr hmlen
  · intro r2 hr2 hner
    have hr2root : r2 ∈ rootIdsOf rows := hpermr.mem_iff.mp hr2
    have hpn2 := (rootIdsOf_parentMap rows hnd r2 hr2root).1
    refine countTree_zero_of_not_ancestor rows hnd rows.length r2 i ?_
    intro s hs
    have hnone2 : iter_chain (parentMap rows) (some i) (s + 1) = none := by
      rw [iter_chain_add, hs, iter_chain_one, hpn2]
    have hslt : s < Nat.find hex := by
      by_contra hge
      have := iter_chain_none_mono (parentMap rows) (some i) (Nat.find hex) s hT0 (by omega)
      rw [this] at hs
      exact Option.noConfusion hs
    have hle : Nat.find hex ≤ s + 1 := Nat.find_min' hex hnone2
    have hsm : s = Nat.find hex - 1 := by omega
    rw [hsm, hr] at hs
    exact hner (Option.some_inj.mp hs).symm

/-- Witness for C10: four acyclic rows, the deepest id counted once in the
assembled forest. -/
theorem c10_each_id_exactly_once_witness :
    countForest 4 [DNode.mk 1 [DNode.mk 2 [DNode.mk 4 []], DNode.mk 3 []]] = 1 :=
  c10_each_id_exactly_once
    [⟨1, none⟩, ⟨2, some 1⟩, ⟨3, some 1⟩, ⟨4, some 2⟩]
    [DNode.mk 1 [DNode.mk 2 [DNode.mk 4 []], DNode.mk 3 []]]
    (by decide) (by decide)
    (by
      intro i hi
      fin_cases hi
      · exact ⟨1, by rfl⟩
      · exact ⟨2, by rfl⟩
      · exact ⟨2, by rfl⟩
      · exact ⟨3, by rfl⟩)
    (by rfl) 4 (by decide)

